import Mathlib

/-!
Verification development for the hound trigram search engine.

The repository ships the public C interface in `src/include/hound.h`; the
implementation behind it is specified in `spec.md`.  This file gives a
shallow embedding of the segment-store data model and of the operations
declared in the header, modelled from the specification, and proves the
spec's testable properties about them.

Bytes are modelled as natural numbers, byte buffers as `List Nat`, and a
trigram as an exact 3-byte key `Nat × Nat × Nat`.
-/

namespace Hound

/-- Modelled from the spec (TrigramExtractor, §4.1): the list of contiguous
3-byte windows of a byte buffer, by a sliding window with no skipping and
no case folding.  Content shorter than 3 bytes yields no trigrams. -/
def trigramsOf : List Nat → List (Nat × Nat × Nat)
  | b0 :: b1 :: b2 :: rest => (b0, b1, b2) :: trigramsOf (b1 :: b2 :: rest)
  | _ => []

/-- Modelled from the spec (§3 Data model): an immutable segment.  Its
document table is the list of `(name, content)` pairs in local-id order;
`base` is the first global id allocated to the segment, so local id `i`
corresponds to global id `base + i` (global ids are drawn consecutively
from the manifest's counter at commit, step 1 of §4.4). -/
structure Segment where
  base : Nat
  docs : List (String × List Nat)
deriving Repr, DecidableEq

/-- Documents of a segment document table paired with their global ids,
starting at global id `g`: entry `(g + i, name, content)` for local id `i`. -/
def docsFrom : Nat → List (String × List Nat) → List (Nat × String × List Nat)
  | _, [] => []
  | g, d :: rest => (g, d.1, d.2) :: docsFrom (g + 1) rest

/-- All documents of a list of segments, with global ids, in segment order. -/
def segsDocs : List Segment → List (Nat × String × List Nat)
  | [] => []
  | s :: rest => docsFrom s.base s.docs ++ segsDocs rest

/-- Modelled from the spec (§3): a segment's trigram table maps a 3-byte key
to the sorted, duplicate-free list of local document ids containing it.
`postingsFrom i docs t` is that posting list for documents numbered from
local id `i`. -/
def postingsFrom : Nat → List (String × List Nat) → Nat × Nat × Nat → List Nat
  | _, [], _ => []
  | i, d :: rest, t =>
      (if t ∈ trigramsOf d.2 then [i] else []) ++ postingsFrom (i + 1) rest t

/-- The per-segment posting list (local ids) for a trigram key. -/
def Segment.postings (s : Segment) (t : Nat × Nat × Nat) : List Nat :=
  postingsFrom 0 s.docs t

/-- Modelled from the spec (§3): the manifest, the single authoritative
pointer to the current committed state: the active segments (resolved, in
commit order), the tombstone set of dead global ids, and the allocation
counter `next_global_id`. -/
structure Manifest where
  segments : List Segment
  tombstones : List Nat
  next_global_id : Nat
deriving Repr, DecidableEq

/-- The empty committed state of a fresh store. -/
def emptyManifest : Manifest := { segments := [], tombstones := [], next_global_id := 0 }

/-- All committed documents of a manifest, with global ids. -/
def Manifest.allDocs (m : Manifest) : List (Nat × String × List Nat) :=
  segsDocs m.segments

/-- The live (non-tombstoned) committed documents of a manifest. -/
def Manifest.liveDocs (m : Manifest) : List (Nat × String × List Nat) :=
  m.allDocs.filter (fun d => decide (d.1 ∉ m.tombstones))

/-- The global ids of live documents carrying a given name. -/
def Manifest.liveIdsOfName (m : Manifest) (name : String) : List Nat :=
  (m.liveDocs.filter (fun d => decide (d.2.1 = name))).map (fun d => d.1)

/-- Merged trigram lookup over a list of segments: for each segment in
manifest order, take its posting list for the key, translate local ids to
global ids by adding the segment base, and drop tombstoned ids. -/
def lookupSegs (tombs : List Nat) (t : Nat × Nat × Nat) : List Segment → List Nat
  | [] => []
  | s :: rest =>
      (((s.postings t).map (fun l => s.base + l)).filter
        (fun g => decide (g ∉ tombs))) ++ lookupSegs tombs t rest

/-- Modelled from the spec (§4.5): a `SegmentIndexReader` resolves the
current manifest into a snapshot captured once at open time. -/
structure SegmentIndexReader where
  snapshot : Manifest
deriving Repr, DecidableEq

/-- Modelled from the spec (§4.5, `hound_segment_index_reader_lookup_trigram`):
merge the per-segment posting lists for the key, translate local ids to
global ids, filter out tombstoned ids, and return the merged list. -/
def SegmentIndexReader.lookup_trigram (r : SegmentIndexReader)
    (b0 b1 b2 : Nat) : List Nat :=
  lookupSegs r.snapshot.tombstones (b0, b1, b2) r.snapshot.segments

/-- Modelled from the spec (§4.5, `hound_segment_index_reader_get_name`):
resolve a global id to its document name; not-found (`none`) if the id is
tombstoned or unknown. -/
def SegmentIndexReader.get_name (r : SegmentIndexReader) (g : Nat) : Option String :=
  match r.snapshot.liveDocs.filter (fun d => decide (d.1 = g)) with
  | [] => none
  | d :: _ => some d.2.1

/-- Modelled from the spec (§4.5): count of live documents in the snapshot. -/
def SegmentIndexReader.document_count (r : SegmentIndexReader) : Nat :=
  r.snapshot.liveDocs.length

/-- Modelled from the spec (§4.5): number of loaded segments. -/
def SegmentIndexReader.segment_count (r : SegmentIndexReader) : Nat :=
  r.snapshot.segments.length

/-- Modelled from the spec (§4.4): a `SegmentIndexWriter` holds the committed
store and the two pending buffers: adds (`name → content`, kept as a list in
staging order with each name at most once) and delete-names. -/
structure SegmentIndexWriter where
  store : Manifest
  pendingAdds : List (String × List Nat)
  pendingDeletes : List String
deriving Repr, DecidableEq

/-- A fresh writer over an empty store (`hound_segment_index_writer_create`
on a new directory). -/
def writer0 : SegmentIndexWriter :=
  { store := emptyManifest, pendingAdds := [], pendingDeletes := [] }

/-- Modelled from the spec (§4.4, `hound_segment_index_writer_add_file`):
the name must be non-empty (failure, `none`, otherwise); a second add for
the same pending name overwrites the first (last write wins within the
batch); if the name is also pending-delete, the delete is cancelled and
replaced by the add. -/
def SegmentIndexWriter.add_file (w : SegmentIndexWriter) (name : String)
    (content : List Nat) : Option SegmentIndexWriter :=
  if name = "" then none
  else some
    { w with
      pendingAdds := (w.pendingAdds.filter (fun p => decide (p.1 ≠ name))) ++ [(name, content)],
      pendingDeletes := w.pendingDeletes.filter (fun n => decide (n ≠ name)) }

/-- Modelled from the spec (§4.4, `hound_segment_index_writer_delete_file`):
if the name has an uncommitted pending add, cancel it instead of emitting a
tombstone; otherwise record the name for tombstoning of its currently-live
global id at commit (recording it once). -/
def SegmentIndexWriter.delete_file (w : SegmentIndexWriter) (name : String) :
    SegmentIndexWriter :=
  if w.pendingAdds.any (fun p => decide (p.1 = name)) then
    { w with pendingAdds := w.pendingAdds.filter (fun p => decide (p.1 ≠ name)) }
  else if name ∈ w.pendingDeletes then w
  else { w with pendingDeletes := w.pendingDeletes ++ [name] }

/-- Whether the writer has staged changes awaiting commit. -/
def SegmentIndexWriter.hasPending (w : SegmentIndexWriter) : Bool :=
  !(w.pendingAdds.isEmpty && w.pendingDeletes.isEmpty)

/-- The new segment a commit would publish: base = the manifest's
`next_global_id`, documents = the pending adds in staging order (§4.4
steps 1–2). -/
def SegmentIndexWriter.newSegment (w : SegmentIndexWriter) : Segment :=
  { base := w.store.next_global_id, docs := w.pendingAdds }

/-- Resolve a list of names to the global ids currently live under them. -/
def resolveNames (m : Manifest) : List String → List Nat
  | [] => []
  | n :: rest => m.liveIdsOfName n ++ resolveNames m rest

/-- Modelled from the spec (§4.4 commit steps 1–5 and §3): the manifest a
non-empty commit publishes.  The new segment is appended to the active
list; each pending delete-name's currently-live global ids are unioned
into the tombstone set (step 4); per §3's update model (a logical update is
tombstone-of-old + add-of-new) and invariant 5 (at most one live global id
per name), the currently-live ids of re-added names are tombstoned as
well; `next_global_id` advances past the freshly allocated ids. -/
def SegmentIndexWriter.commitManifest (w : SegmentIndexWriter) : Manifest :=
  { segments := w.store.segments ++ [w.newSegment],
    tombstones := w.store.tombstones
      ++ resolveNames w.store w.pendingDeletes
      ++ resolveNames w.store (w.pendingAdds.map (fun p => p.1)),
    next_global_id := w.store.next_global_id + w.pendingAdds.length }

/-- Modelled from the spec (§4.4, `hound_segment_index_writer_commit`):
with no pending adds and no pending deletes the commit is a no-op;
otherwise it publishes `commitManifest` and clears the pending buffers. -/
def SegmentIndexWriter.commit (w : SegmentIndexWriter) : SegmentIndexWriter :=
  if w.hasPending then
    { store := w.commitManifest, pendingAdds := [], pendingDeletes := [] }
  else w

/-- Modelled from the spec (§4.4, `hound_segment_index_writer_segment_count`):
reflects only committed state, never pending buffers. -/
def SegmentIndexWriter.segment_count (w : SegmentIndexWriter) : Nat :=
  w.store.segments.length

/-- Modelled from the spec (§4.4, `hound_segment_index_writer_document_count`):
number of live documents of the committed state. -/
def SegmentIndexWriter.document_count (w : SegmentIndexWriter) : Nat :=
  w.store.liveDocs.length

/-- Stage a list of `(name, content)` pairs through `add_file`, in order;
fails if any add fails. -/
def stageAll : SegmentIndexWriter → List (String × List Nat) → Option SegmentIndexWriter
  | w, [] => some w
  | w, p :: ps =>
      match w.add_file p.1 p.2 with
      | none => none
      | some w' => stageAll w' ps

/-- Modelled from the spec (§7): the writer states reachable through the
public interface, starting from a fresh writer over an empty store. -/
inductive Reachable : SegmentIndexWriter → Prop
  | init : Reachable writer0
  | add {w w' : SegmentIndexWriter} {n : String} {c : List Nat} :
      Reachable w → w.add_file n c = some w' → Reachable w'
  | del {w : SegmentIndexWriter} {n : String} :
      Reachable w → Reachable (w.delete_file n)
  | commit {w : SegmentIndexWriter} : Reachable w → Reachable w.commit

/- ## Searcher -/

/-- Modelled from the spec (§3): a search result entry. -/
structure SearchResult where
  file_id : Nat
  match_count : Nat
  name : String
deriving Repr, DecidableEq

/-- The unique trigram set of a query (order irrelevant, duplicates
collapse), §4.3 step 1. -/
def queryTrigrams (q : List Nat) : List (Nat × Nat × Nat) :=
  (trigramsOf q).dedup

/-- §4.3 step 2: the number of query trigrams whose posting list contains a
given document id. -/
def matchCount (r : SegmentIndexReader) (qt : List (Nat × Nat × Nat)) (g : Nat) : Nat :=
  (qt.filter (fun t => decide (g ∈ r.lookup_trigram t.1 t.2.1 t.2.2))).length

/-- §4.3 step 3: the candidate ids ranked by `(match_count descending,
file_id ascending)`: ids with match count `c`, then `c - 1`, ..., then `1`
(zero-count ids are not candidates), each bucket in ascending id order. -/
def rankedIds (cnt : Nat → Nat) (ids : List Nat) : Nat → List Nat
  | 0 => []
  | c + 1 => ids.filter (fun g => decide (cnt g = c + 1)) ++ rankedIds cnt ids c

/-- Modelled from the spec (§4.3, Searcher): extract the unique trigram set
of the query; accumulate per-document match counts over the reader's
posting lists; rank by `(match_count desc, file_id asc)`; truncate to
`max_results`; resolve display names.  Purely read-only. -/
def SegmentIndexReader.search (r : SegmentIndexReader) (query : List Nat)
    (max_results : Nat) : List SearchResult :=
  ((rankedIds (matchCount r (queryTrigrams query))
      (List.range r.snapshot.next_global_id) (queryTrigrams query).length).take
    max_results).map (fun g =>
    { file_id := g, match_count := matchCount r (queryTrigrams query) g,
      name := (r.get_name g).getD "" })

/-- Modelled from the spec (§4.3) and `hound_search` in `hound.h`: the query
arrives as a NUL-terminated C string, so only the bytes before the first
zero byte are considered. -/
def hound_search (r : SegmentIndexReader) (query : List Nat)
    (max_results : Nat) : List SearchResult :=
  r.search (query.takeWhile (fun b => decide (b ≠ 0))) max_results

/- ## On-disk commit protocol -/

/-- Modelled from the spec (§4.4, §6): the store directory as a reader sees
it: the published manifest, plus possibly an orphaned temporary segment
file and temporary manifest file from an interrupted commit. -/
structure Disk where
  manifest : Manifest
  tempSegment : Option Segment
  tempManifest : Option Manifest
deriving Repr, DecidableEq

/-- Modelled from the spec (§4.5, `hound_segment_index_reader_open`):
opening a reader resolves the published manifest into a snapshot; orphaned
temporary files are ignored. -/
def hound_segment_index_reader_open (d : Disk) : SegmentIndexReader :=
  { snapshot := d.manifest }

/-- Modelled from the spec (§4.4 commit steps): the store directory after
the commit protocol has completed `stepsDone` of its steps and then
stopped (crash or failure).  Steps 1–2 are in-memory; step 3 writes the
temporary segment file; step 4 is in-memory; step 5 writes the temporary
manifest file and then — counted here as a sixth completed step — performs
the single atomic rename, the sole publish point.  `stepsDone < 6` means
the commit failed before publication.  An empty commit touches nothing. -/
def SegmentIndexWriter.commitOnDisk (w : SegmentIndexWriter) (stepsDone : Nat) : Disk :=
  if w.hasPending then
    { manifest := if 6 ≤ stepsDone then w.commitManifest else w.store,
      tempSegment := if 3 ≤ stepsDone then some w.newSegment else none,
      tempManifest := if 5 ≤ stepsDone then some w.commitManifest else none }
  else { manifest := w.store, tempSegment := none, tempManifest := none }

/-- Modelled from the spec (§4.4 step 6, §7): the writer after a commit
attempt that completed `stepsDone` steps: pending buffers are cleared only
on success, so a failed commit may be retried with the same buffers. -/
def SegmentIndexWriter.commitSurvivor (w : SegmentIndexWriter) (stepsDone : Nat) :
    SegmentIndexWriter :=
  if 6 ≤ stepsDone then w.commit else w

/- ## Store well-formedness -/

/-- The segments of a manifest are chained: each segment's base global id is
at least the running high-water mark, so id ranges of distinct segments are
disjoint and appear in ascending order. -/
def segsChained : Nat → List Segment → Prop
  | _, [] => True
  | lo, s :: rest => lo ≤ s.base ∧ segsChained (s.base + s.docs.length) rest

/-- The high-water mark of allocated global ids after a list of segments. -/
def segsEnd : Nat → List Segment → Nat
  | lo, [] => lo
  | _, s :: rest => segsEnd (s.base + s.docs.length) rest

/-- Well-formedness of a committed manifest: chained segments, allocation
counter past every allocated id, tombstones only over allocated ids, and at
most one live global id per name (spec §3, invariants 2–5). -/
structure ManifestInv (m : Manifest) : Prop where
  chained : segsChained 0 m.segments
  bound : segsEnd 0 m.segments ≤ m.next_global_id
  tombsLt : ∀ g ∈ m.tombstones, g < m.next_global_id
  nameUnique : ∀ n, (m.liveIdsOfName n).length ≤ 1

/-- Well-formedness of a writer: a well-formed committed store and
duplicate-free pending add names. -/
structure WriterInv (w : SegmentIndexWriter) : Prop where
  store : ManifestInv w.store
  addsNodup : (w.pendingAdds.map (fun p => p.1)).Nodup

/-- A committed snapshot holding one document whose content is three zero
bytes: its trigram is reachable through the explicit 3-byte lookup. -/
def zeroByteReader : SegmentIndexReader :=
  { snapshot :=
    { segments := [{ base := 0, docs := [("z", [0, 0, 0])] }],
      tombstones := [], next_global_id := 1 } }

/-- A fresh writer with one staged document, the spec's Example 1. -/
def stagedABC : SegmentIndexWriter :=
  { store := emptyManifest, pendingAdds := [("a.txt", [97, 98, 99])],
    pendingDeletes := [] }

/- ## Basic lemmas about trigram extraction -/

theorem trigramsOf_mem : ∀ (l : List Nat) (t : Nat × Nat × Nat),
    t ∈ trigramsOf l → t.1 ∈ l ∧ t.2.1 ∈ l ∧ t.2.2 ∈ l
  | b0 :: b1 :: b2 :: rest, t, h => by
      simp only [trigramsOf, List.mem_cons] at h
      rcases h with h | h
      · subst h; simp
      · have ih := trigramsOf_mem (b1 :: b2 :: rest) t h
        simp only [List.mem_cons] at ih ⊢
        tauto
  | [], _, h => by simp [trigramsOf] at h
  | [_], _, h => by simp [trigramsOf] at h
  | [_, _], _, h => by simp [trigramsOf] at h

theorem trigramsOf_short {l : List Nat} (h : l.length < 3) : trigramsOf l = [] := by
  match l, h with
  | [], _ => rfl
  | [_], _ => rfl
  | [_, _], _ => rfl
  | _ :: _ :: _ :: _, h => simp at h; omega

/- ## Basic lemmas about document tables -/

theorem docsFrom_map : ∀ (g : Nat) (ds : List (String × List Nat)),
    (docsFrom g ds).map (fun d => (d.2.1, d.2.2)) = ds
  | _, [] => rfl
  | g, d :: rest => by simp [docsFrom, docsFrom_map (g + 1) rest]

theorem mem_docsFrom_bounds : ∀ {g : Nat} {ds : List (String × List Nat)}
    {d : Nat × String × List Nat}, d ∈ docsFrom g ds → g ≤ d.1 ∧ d.1 < g + ds.length := by
  intro g ds
  induction ds generalizing g with
  | nil => intro d h; simp [docsFrom] at h
  | cons p rest ih =>
      intro d h
      simp only [docsFrom, List.mem_cons] at h
      rcases h with h | h
      · subst h; simp
      · have := ih h
        simp only [List.length_cons]
        omega

theorem mem_docsFrom_name {g : Nat} {ds : List (String × List Nat)}
    {d : Nat × String × List Nat} (h : d ∈ docsFrom g ds) :
    d.2.1 ∈ ds.map (fun p => p.1) := by
  induction ds generalizing g with
  | nil => simp [docsFrom] at h
  | cons p rest ih =>
      simp only [docsFrom, List.mem_cons] at h
      rcases h with h | h
      · subst h; simp
      · simpa using Or.inr (ih h)

theorem docsFrom_pairwise : ∀ (g : Nat) (ds : List (String × List Nat)),
    (docsFrom g ds).Pairwise (fun a b => a.1 < b.1)
  | _, [] => List.Pairwise.nil
  | g, d :: rest => by
      simp only [docsFrom]
      refine List.Pairwise.cons ?_ (docsFrom_pairwise (g + 1) rest)
      intro b hb
      have := mem_docsFrom_bounds hb
      simp only
      omega

theorem mem_docsFrom_of_mem_pairs : ∀ {g : Nat} {ds : List (String × List Nat)}
    {p : String × List Nat}, p ∈ ds → ∃ i, i < ds.length ∧ (g + i, p.1, p.2) ∈ docsFrom g ds := by
  intro g ds
  induction ds generalizing g with
  | nil => intro p h; simp at h
  | cons q rest ih =>
      intro p h
      rcases List.mem_cons.mp h with h | h
      · subst h; exact ⟨0, by simp [docsFrom]⟩
      · rcases @ih (g + 1) p h with ⟨i, hi, hmem⟩
        exact ⟨i + 1, by simpa using hi, by
          simp only [docsFrom, List.mem_cons]
          right
          have : g + (i + 1) = g + 1 + i := by omega
          rw [this]
          exact hmem⟩

/- ## Posting lists -/

theorem mem_postingsFrom : ∀ (i : Nat) (ds : List (String × List Nat))
    (t : Nat × Nat × Nat) (j : Nat),
    j ∈ postingsFrom i ds t ↔ ∃ n c, (j, n, c) ∈ docsFrom i ds ∧ t ∈ trigramsOf c
  | i, [], t, j => by simp [postingsFrom, docsFrom]
  | i, d :: rest, t, j => by
      simp only [postingsFrom, docsFrom, List.mem_append, List.mem_cons,
        mem_postingsFrom (i + 1) rest t j]
      constructor
      · rintro (h | ⟨n, c, hmem, ht⟩)
        · have hj : j = i ∧ t ∈ trigramsOf d.2 := by
            by_cases hc : t ∈ trigramsOf d.2 <;> simp [hc] at h ⊢
            exact h
          exact ⟨d.1, d.2, Or.inl (by simp [hj.1]), hj.2⟩
        · exact ⟨n, c, Or.inr hmem, ht⟩
      · rintro ⟨n, c, h | h, ht⟩
        · left
          have h1 : j = i := congrArg (fun x => x.1) h
          have h2 : c = d.2 := congrArg (fun x => x.2.2) h
          subst h1
          rw [h2] at ht
          simp [ht]
        · exact Or.inr ⟨n, c, h, ht⟩

theorem mem_postingsFrom_bounds : ∀ {i : Nat} {ds : List (String × List Nat)}
    {t : Nat × Nat × Nat} {j : Nat}, j ∈ postingsFrom i ds t → i ≤ j ∧ j < i + ds.length := by
  intro i ds t j h
  rcases (mem_postingsFrom i ds t j).mp h with ⟨n, c, hmem, _⟩
  exact mem_docsFrom_bounds hmem

theorem postingsFrom_pairwise : ∀ (i : Nat) (ds : List (String × List Nat))
    (t : Nat × Nat × Nat), (postingsFrom i ds t).Pairwise (· < ·)
  | i, [], t => List.Pairwise.nil
  | i, d :: rest, t => by
      simp only [postingsFrom]
      rw [List.pairwise_append]
      refine ⟨?_, postingsFrom_pairwise (i + 1) rest t, ?_⟩
      · by_cases hc : t ∈ trigramsOf d.2 <;> simp [hc]
      · intro a ha b hb
        have hb' := mem_postingsFrom_bounds hb
        have ha' : a = i := by
          by_cases hc : t ∈ trigramsOf d.2 <;> simp [hc] at ha; omega
        omega

/- ## Cross-segment documents -/

theorem segsDocs_append : ∀ (s1 s2 : List Segment),
    segsDocs (s1 ++ s2) = segsDocs s1 ++ segsDocs s2
  | [], _ => rfl
  | s :: rest, s2 => by simp [segsDocs, segsDocs_append rest s2]

theorem mem_segsDocs : ∀ {segs : List Segment} {d : Nat × String × List Nat},
    d ∈ segsDocs segs ↔ ∃ s ∈ segs, d ∈ docsFrom s.base s.docs := by
  intro segs
  induction segs with
  | nil => simp [segsDocs]
  | cons s rest ih => intro d; simp [segsDocs, ih]

theorem segsEnd_ge : ∀ {lo : Nat} {segs : List Segment},
    segsChained lo segs → lo ≤ segsEnd lo segs := by
  intro lo segs
  induction segs generalizing lo with
  | nil => intro _; simp [segsEnd]
  | cons s rest ih =>
      intro h
      have h1 := h.1
      have := ih h.2
      simp only [segsEnd]
      omega

theorem mem_segsDocs_bounds : ∀ {lo : Nat} {segs : List Segment}
    {d : Nat × String × List Nat}, segsChained lo segs → d ∈ segsDocs segs →
    lo ≤ d.1 ∧ d.1 < segsEnd lo segs := by
  intro lo segs
  induction segs generalizing lo with
  | nil => intro d _ h; simp [segsDocs] at h
  | cons s rest ih =>
      intro d hch h
      have h1 := hch.1
      rcases List.mem_append.mp h with h | h
      · have hb := mem_docsFrom_bounds h
        have := segsEnd_ge hch.2
        simp only [segsEnd]
        omega
      · have := ih hch.2 h
        simp only [segsEnd]
        omega

theorem segsDocs_pairwise : ∀ {lo : Nat} {segs : List Segment},
    segsChained lo segs → (segsDocs segs).Pairwise (fun a b => a.1 < b.1) := by
  intro lo segs
  induction segs generalizing lo with
  | nil => intro _; exact List.Pairwise.nil
  | cons s rest ih =>
      intro hch
      simp only [segsDocs]
      rw [List.pairwise_append]
      refine ⟨docsFrom_pairwise s.base s.docs, ih hch.2, ?_⟩
      intro a ha b hb
      have h1 := mem_docsFrom_bounds ha
      have h2 := mem_segsDocs_bounds hch.2 hb
      omega

/-- In a list that is pairwise strictly increasing on a natural key, the key
determines the element. -/
theorem pairwise_key_inj {α : Type} {key : α → Nat} : ∀ {l : List α},
    l.Pairwise (fun a b => key a < key b) → ∀ {d1 d2 : α},
    d1 ∈ l → d2 ∈ l → key d1 = key d2 → d1 = d2 := by
  intro l
  induction l with
  | nil => intro _ d1 d2 h1; simp at h1
  | cons a l ih =>
      intro hp d1 d2 h1 h2 hid
      rcases List.pairwise_cons.mp hp with ⟨hall, hrest⟩
      rcases List.mem_cons.mp h1 with h1 | h1
      · rcases List.mem_cons.mp h2 with h2 | h2
        · rw [h1, h2]
        · have := hall d2 h2
          rw [← h1] at this
          omega
      · rcases List.mem_cons.mp h2 with h2 | h2
        · have := hall d1 h1
          rw [← h2] at this
          omega
        · exact ih hrest h1 h2 hid

/-- Two committed documents with the same global id are the same document. -/
theorem segsDocs_id_inj {lo : Nat} {segs : List Segment}
    (hch : segsChained lo segs) {d1 d2 : Nat × String × List Nat}
    (h1 : d1 ∈ segsDocs segs) (h2 : d2 ∈ segsDocs segs) (hid : d1.1 = d2.1) :
    d1 = d2 :=
  pairwise_key_inj (segsDocs_pairwise hch) h1 h2 hid

theorem segsChained_append_single {lo : Nat} {segs : List Segment}
    (hch : segsChained lo segs) {b : Nat} (hb : segsEnd lo segs ≤ b)
    (ds : List (String × List Nat)) :
    segsChained lo (segs ++ [{ base := b, docs := ds }]) := by
  induction segs generalizing lo with
  | nil => exact ⟨by simpa [segsEnd] using hb, trivial⟩
  | cons s rest ih =>
      exact ⟨hch.1, ih hch.2 hb⟩

theorem segsEnd_append_single : ∀ (lo : Nat) (segs : List Segment) (b : Nat)
    (ds : List (String × List Nat)),
    segsEnd lo (segs ++ [{ base := b, docs := ds }]) = b + ds.length
  | _, [], _, _ => rfl
  | _, _ :: rest, b, ds => segsEnd_append_single _ rest b ds

/- ## Live documents and name resolution -/

theorem mem_liveDocs {m : Manifest} {d : Nat × String × List Nat} :
    d ∈ m.liveDocs ↔ d ∈ m.allDocs ∧ d.1 ∉ m.tombstones := by
  simp [Manifest.liveDocs, List.mem_filter]

theorem mem_liveIdsOfName {m : Manifest} {n : String} {g : Nat} :
    g ∈ m.liveIdsOfName n ↔ ∃ c, (g, n, c) ∈ m.liveDocs := by
  simp only [Manifest.liveIdsOfName, List.mem_map, List.mem_filter,
    decide_eq_true_iff]
  constructor
  · rintro ⟨d, ⟨hd, hn⟩, hg⟩
    exact ⟨d.2.2, by rwa [← hg, ← hn]⟩
  · rintro ⟨c, hc⟩
    exact ⟨(g, n, c), ⟨hc, rfl⟩, rfl⟩

theorem mem_resolveNames {m : Manifest} : ∀ {names : List String} {g : Nat},
    g ∈ resolveNames m names ↔ ∃ n ∈ names, g ∈ m.liveIdsOfName n := by
  intro names
  induction names with
  | nil => simp [resolveNames]
  | cons n rest ih => intro g; simp [resolveNames, ih]

/-- Any id produced by name resolution belongs to a committed document. -/
theorem resolveNames_lt {m : Manifest} {names : List String} {g : Nat}
    (hch : segsChained 0 m.segments) (h : g ∈ resolveNames m names) :
    g < segsEnd 0 m.segments := by
  rcases mem_resolveNames.mp h with ⟨n, _, hg⟩
  rcases mem_liveIdsOfName.mp hg with ⟨c, hc⟩
  have := mem_segsDocs_bounds hch (mem_liveDocs.mp hc).1
  exact this.2

/- ## Merged trigram lookup -/

theorem postingsFrom_shift : ∀ (b i : Nat) (ds : List (String × List Nat))
    (t : Nat × Nat × Nat),
    (postingsFrom i ds t).map (fun l => b + l) = postingsFrom (b + i) ds t
  | _, _, [], _ => rfl
  | b, i, d :: rest, t => by
      simp only [postingsFrom, List.map_append]
      rw [postingsFrom_shift b (i + 1) rest t]
      by_cases hc : t ∈ trigramsOf d.2 <;> simp [hc] <;> rfl

/-- Membership in the merged lookup: a global id is returned for a key
exactly when some committed document with that id contains the key and the
id is not tombstoned. -/
theorem mem_lookupSegs {tombs : List Nat} {t : Nat × Nat × Nat} :
    ∀ {segs : List Segment} {g : Nat},
    g ∈ lookupSegs tombs t segs ↔
      (∃ n c, (g, n, c) ∈ segsDocs segs ∧ t ∈ trigramsOf c) ∧ g ∉ tombs := by
  intro segs
  induction segs with
  | nil => intro g; simp [lookupSegs, segsDocs]
  | cons s rest ih =>
      intro g
      simp only [lookupSegs, List.mem_append, List.mem_filter, List.mem_map,
        decide_eq_true_iff, ih, Segment.postings]
      constructor
      · rintro (⟨⟨l, hl, hg⟩, ht⟩ | ⟨⟨n, c, hmem, htri⟩, ht⟩)
        · have : g ∈ postingsFrom (s.base + 0) s.docs t := by
            rw [← postingsFrom_shift]
            exact List.mem_map.mpr ⟨l, hl, hg⟩
          rcases (mem_postingsFrom _ _ _ _).mp (by simpa using this) with ⟨n, c, hmem, htri⟩
          exact ⟨⟨n, c, by simp [segsDocs, List.mem_append, hmem], htri⟩, ht⟩
        · exact ⟨⟨n, c, by simp [segsDocs, List.mem_append, hmem], htri⟩, ht⟩
      · rintro ⟨⟨n, c, hmem, htri⟩, ht⟩
        simp only [segsDocs, List.mem_append] at hmem
        rcases hmem with hmem | hmem
        · left
          refine ⟨?_, ht⟩
          have : g ∈ postingsFrom (s.base + 0) s.docs t :=
            (mem_postingsFrom _ _ _ _).mpr ⟨n, c, by simpa using hmem, htri⟩
          rw [← postingsFrom_shift] at this
          rcases List.mem_map.mp this with ⟨l, hl, hg⟩
          exact ⟨l, hl, hg⟩
        · right
          exact ⟨⟨n, c, hmem, htri⟩, ht⟩

theorem mem_lookupSegs_bounds {tombs : List Nat} {t : Nat × Nat × Nat}
    {lo : Nat} {segs : List Segment} (hch : segsChained lo segs) {g : Nat}
    (h : g ∈ lookupSegs tombs t segs) : lo ≤ g ∧ g < segsEnd lo segs := by
  rcases mem_lookupSegs.mp h with ⟨⟨n, c, hmem, _⟩, _⟩
  exact mem_segsDocs_bounds hch hmem

/-- The merged lookup result is strictly ascending. -/
theorem lookupSegs_pairwise {tombs : List Nat} {t : Nat × Nat × Nat} :
    ∀ {lo : Nat} {segs : List Segment}, segsChained lo segs →
    (lookupSegs tombs t segs).Pairwise (· < ·) := by
  intro lo segs
  induction segs generalizing lo with
  | nil => intro _; exact List.Pairwise.nil
  | cons s rest ih =>
      intro hch
      simp only [lookupSegs]
      rw [List.pairwise_append]
      refine ⟨?_, ih hch.2, ?_⟩
      · refine List.Pairwise.filter _ ?_
        rw [List.pairwise_map]
        have := postingsFrom_pairwise 0 s.docs t
        exact this.imp (by omega)
      · intro a ha b hb
        have hb' := (mem_lookupSegs_bounds hch.2 hb).1
        rcases List.mem_filter.mp ha with ⟨ha', _⟩
        rcases List.mem_map.mp ha' with ⟨l, hl, hal⟩
        have := mem_postingsFrom_bounds hl
        omega

/- ## The effect of a commit on the live document set -/

/-- For a committed document, surviving the tombstones a commit unions in is
the same as not being dead already and not carrying a pending-delete or
re-added name. -/
theorem commit_survive_iff (w : SegmentIndexWriter)
    (hch : segsChained 0 w.store.segments)
    {d : Nat × String × List Nat} (hd : d ∈ segsDocs w.store.segments) :
    (d.1 ∉ w.store.tombstones
        ++ resolveNames w.store w.pendingDeletes
        ++ resolveNames w.store (w.pendingAdds.map (fun p => p.1))) ↔
      (d.1 ∉ w.store.tombstones ∧ d.2.1 ∉ w.pendingDeletes
        ∧ d.2.1 ∉ w.pendingAdds.map (fun p => p.1)) := by
  have key : ∀ names : List String, d.1 ∉ w.store.tombstones →
      (d.1 ∈ resolveNames w.store names ↔ d.2.1 ∈ names) := by
    intro names hlive
    constructor
    · intro h
      rcases mem_resolveNames.mp h with ⟨n, hn, hg⟩
      rcases mem_liveIdsOfName.mp hg with ⟨c, hc⟩
      have hmem := (mem_liveDocs.mp hc).1
      have heq : (d.1, n, c) = d := segsDocs_id_inj hch hmem hd rfl
      have hn2 : d.2.1 = n := by rw [← heq]
      rw [hn2]
      exact hn
    · intro h
      refine mem_resolveNames.mpr ⟨d.2.1, h, mem_liveIdsOfName.mpr ⟨d.2.2, ?_⟩⟩
      exact mem_liveDocs.mpr ⟨hd, hlive⟩
  simp only [List.mem_append, not_or]
  constructor
  · rintro ⟨⟨ht, hdel⟩, hadd⟩
    exact ⟨ht, fun hc => hdel ((key _ ht).mpr hc), fun hc => hadd ((key _ ht).mpr hc)⟩
  · rintro ⟨ht, hdel, hadd⟩
    exact ⟨⟨ht, fun hc => hdel ((key _ ht).mp hc)⟩, fun hc => hadd ((key _ ht).mp hc)⟩

/-- Central commit lemma: a non-empty commit's live document set is the
prior live set minus pending-delete and re-added names, followed by the
freshly added documents at freshly allocated ids. -/
theorem commit_liveDocs (w : SegmentIndexWriter)
    (hch : segsChained 0 w.store.segments)
    (hend : segsEnd 0 w.store.segments ≤ w.store.next_global_id)
    (htombs : ∀ g ∈ w.store.tombstones, g < w.store.next_global_id)
    (hp : w.hasPending = true) :
    w.commit.store.liveDocs =
      w.store.liveDocs.filter
        (fun d => decide (d.2.1 ∉ w.pendingDeletes)
          && decide (d.2.1 ∉ w.pendingAdds.map (fun p => p.1)))
      ++ docsFrom w.store.next_global_id w.pendingAdds := by
  have hstore : w.commit.store = w.commitManifest := by
    simp [SegmentIndexWriter.commit, hp]
  rw [hstore]
  have hall : w.commitManifest.allDocs
      = segsDocs w.store.segments ++ docsFrom w.store.next_global_id w.pendingAdds := by
    simp [SegmentIndexWriter.commitManifest, Manifest.allDocs, segsDocs_append,
      SegmentIndexWriter.newSegment, segsDocs]
  have htombs' : ∀ g ∈ w.commitManifest.tombstones, g < w.store.next_global_id := by
    intro g hg
    simp only [SegmentIndexWriter.commitManifest, List.mem_append] at hg
    rcases hg with (hg | hg) | hg
    · exact htombs g hg
    · exact Nat.lt_of_lt_of_le (resolveNames_lt hch hg) hend
    · exact Nat.lt_of_lt_of_le (resolveNames_lt hch hg) hend
  rw [Manifest.liveDocs, hall, List.filter_append]
  congr 1
  · rw [Manifest.liveDocs, Manifest.allDocs, List.filter_filter]
    refine List.filter_congr ?_
    intro d hd
    have hiff := commit_survive_iff w hch hd
    simp only [SegmentIndexWriter.commitManifest] at hiff ⊢
    have hb : (decide (d.2.1 ∉ w.pendingDeletes)
          && decide (d.2.1 ∉ w.pendingAdds.map (fun p => p.1))
          && decide (d.1 ∉ w.store.tombstones))
        = decide ((d.2.1 ∉ w.pendingDeletes
            ∧ d.2.1 ∉ w.pendingAdds.map (fun p => p.1)) ∧ d.1 ∉ w.store.tombstones) := by
      simp
    rw [hb, decide_eq_decide, hiff]
    tauto
  · rw [List.filter_eq_self]
    intro d hd
    have hge := (mem_docsFrom_bounds hd).1
    simp only [decide_eq_true_iff]
    intro hmem
    exact absurd (htombs' _ hmem) (by omega)

/- ## Preservation of well-formedness -/

theorem docsFrom_filter_name_le_one : ∀ (g : Nat) (ds : List (String × List Nat)) (n : String),
    (ds.map (fun p => p.1)).Nodup →
    ((docsFrom g ds).filter (fun d => decide (d.2.1 = n))).length ≤ 1 := by
  intro g ds
  induction ds generalizing g with
  | nil => intro n _; simp [docsFrom]
  | cons p rest ih =>
      intro n hnd
      simp only [List.map_cons, List.nodup_cons] at hnd
      simp only [docsFrom, List.filter_cons]
      by_cases hp : p.1 = n
      · simp only [hp, decide_eq_true_eq, if_pos, List.length_cons]
        have hnil : (docsFrom (g + 1) rest).filter (fun d => decide (d.2.1 = n)) = [] := by
          rw [List.filter_eq_nil_iff]
          intro d hd
          have := mem_docsFrom_name hd
          simp only [decide_eq_true_iff]
          intro hc
          rw [hc, ← hp] at this
          exact hnd.1 (by simpa using this)
        rw [hnil]
        simp
      · have hd : decide ((g, p.1, p.2).2.1 = n) = false := by
          simpa using hp
        rw [hd]
        simp only [Bool.false_eq_true, if_false]
        exact ih (g + 1) n hnd.2

theorem commit_manifestInv {w : SegmentIndexWriter} (hw : WriterInv w) :
    ManifestInv w.commit.store := by
  by_cases hp : w.hasPending = true
  · have hstore : w.commit.store = w.commitManifest := by
      simp [SegmentIndexWriter.commit, hp]
    have htombs' : ∀ g ∈ w.commitManifest.tombstones, g < w.store.next_global_id := by
      intro g hg
      simp only [SegmentIndexWriter.commitManifest, List.mem_append] at hg
      rcases hg with (hg | hg) | hg
      · exact hw.store.tombsLt g hg
      · exact Nat.lt_of_lt_of_le (resolveNames_lt hw.store.chained hg) hw.store.bound
      · exact Nat.lt_of_lt_of_le (resolveNames_lt hw.store.chained hg) hw.store.bound
    have hld := commit_liveDocs w hw.store.chained hw.store.bound hw.store.tombsLt hp
    constructor
    · rw [hstore]
      exact segsChained_append_single hw.store.chained hw.store.bound _
    · rw [hstore]
      simp only [SegmentIndexWriter.commitManifest, SegmentIndexWriter.newSegment]
      rw [segsEnd_append_single]
    · rw [hstore]
      intro g hg
      have := htombs' g hg
      simp only [SegmentIndexWriter.commitManifest]
      omega
    · intro n
      rw [Manifest.liveIdsOfName, hld, List.filter_append, List.map_append,
        List.length_append]
      by_cases hn : n ∈ w.pendingAdds.map (fun p => p.1)
      · have hA : ((w.store.liveDocs.filter
            (fun d => decide (d.2.1 ∉ w.pendingDeletes)
              && decide (d.2.1 ∉ w.pendingAdds.map (fun p => p.1)))).filter
            (fun d => decide (d.2.1 = n))) = [] := by
          rw [List.filter_eq_nil_iff]
          intro d hd
          rcases List.mem_filter.mp hd with ⟨_, hq⟩
          simp only [Bool.and_eq_true, decide_eq_true_iff] at hq
          simp only [decide_eq_true_iff]
          intro hc
          rw [hc] at hq
          exact hq.2 hn
        rw [hA]
        have := docsFrom_filter_name_le_one w.store.next_global_id w.pendingAdds n
          hw.addsNodup
        simpa using this
      · have hB : ((docsFrom w.store.next_global_id w.pendingAdds).filter
            (fun d => decide (d.2.1 = n))) = [] := by
          rw [List.filter_eq_nil_iff]
          intro d hd
          have := mem_docsFrom_name hd
          simp only [decide_eq_true_iff]
          intro hc
          rw [hc] at this
          exact hn this
        rw [hB]
        have hsub : List.Sublist
            ((w.store.liveDocs.filter
              (fun d => decide (d.2.1 ∉ w.pendingDeletes)
                && decide (d.2.1 ∉ w.pendingAdds.map (fun p => p.1)))).filter
              (fun d => decide (d.2.1 = n)))
            (w.store.liveDocs.filter (fun d => decide (d.2.1 = n))) :=
          List.Sublist.filter _ (List.filter_sublist _)
        have hle := hsub.length_le
        have hu := hw.store.nameUnique n
        rw [Manifest.liveIdsOfName, List.length_map] at hu
        simp only [List.length_map, List.length_nil]
        omega
  · have : w.commit = w := by
      simp only [SegmentIndexWriter.commit, if_neg hp]
    rw [this]
    exact hw.store

theorem commit_inv {w : SegmentIndexWriter} (hw : WriterInv w) : WriterInv w.commit := by
  refine ⟨commit_manifestInv hw, ?_⟩
  by_cases hp : w.hasPending = true
  · simp [SegmentIndexWriter.commit, hp]
  · simp only [SegmentIndexWriter.commit, if_neg hp]
    exact hw.addsNodup

theorem add_file_inv {w w' : SegmentIndexWriter} {n : String} {c : List Nat}
    (hw : WriterInv w) (h : w.add_file n c = some w') : WriterInv w' := by
  rw [SegmentIndexWriter.add_file] at h
  by_cases hn : n = ""
  · simp [hn] at h
  · rw [if_neg hn] at h
    rcases Option.some.injEq _ _ ▸ h with rfl
    refine ⟨hw.store, ?_⟩
    simp only [List.map_append, List.map_cons, List.map_nil]
    rw [List.nodup_append]
    refine ⟨?_, List.nodup_singleton n, ?_⟩
    · exact ((List.filter_sublist _).map _).nodup hw.addsNodup
    · intro a ha
      rcases List.mem_map.mp ha with ⟨p, hp, hpa⟩
      rcases List.mem_filter.mp hp with ⟨_, hpn⟩
      simp only [decide_eq_true_iff] at hpn
      simp only [List.mem_singleton]
      rw [← hpa]
      intro hc
      exact hpn hc

theorem delete_file_inv {w : SegmentIndexWriter} {n : String}
    (hw : WriterInv w) : WriterInv (w.delete_file n) := by
  rw [SegmentIndexWriter.delete_file]
  by_cases h1 : w.pendingAdds.any (fun p => decide (p.1 = n)) = true
  · rw [if_pos h1]
    exact ⟨hw.store, ((List.filter_sublist _).map _).nodup hw.addsNodup⟩
  · rw [if_neg h1]
    by_cases h2 : n ∈ w.pendingDeletes
    · rw [if_pos h2]
      exact hw
    · rw [if_neg h2]
      exact ⟨hw.store, hw.addsNodup⟩

theorem writer0_inv : WriterInv writer0 := by
  refine ⟨⟨trivial, Nat.le_refl 0, ?_, ?_⟩, List.nodup_nil⟩
  · intro g hg
    simp [writer0, emptyManifest] at hg
  · intro n
    simp [writer0, emptyManifest, Manifest.liveIdsOfName, Manifest.liveDocs,
      Manifest.allDocs, segsDocs]

/-- Every writer state reachable through the public interface is
well-formed. -/
theorem reachable_inv {w : SegmentIndexWriter} (h : Reachable w) : WriterInv w := by
  induction h with
  | init => exact writer0_inv
  | add _ hstep ih => exact add_file_inv ih hstep
  | del _ ih => exact delete_file_inv ih
  | commit _ ih => exact commit_inv ih

/- ## Ranking lemmas -/

theorem mem_rankedIds {cnt : Nat → Nat} {ids : List Nat} :
    ∀ {c g : Nat}, g ∈ rankedIds cnt ids c → g ∈ ids ∧ 1 ≤ cnt g ∧ cnt g ≤ c := by
  intro c
  induction c with
  | zero => intro g h; simp [rankedIds] at h
  | succ c ih =>
      intro g h
      rcases List.mem_append.mp h with h | h
      · rcases List.mem_filter.mp h with ⟨hg, hc⟩
        simp only [decide_eq_true_iff] at hc
        exact ⟨hg, by omega, by omega⟩
      · have := ih h
        exact ⟨this.1, this.2.1, by omega⟩

theorem rankedIds_pairwise (cnt : Nat → Nat) (ids : List Nat)
    (hids : ids.Pairwise (· < ·)) :
    ∀ c, (rankedIds cnt ids c).Pairwise
      (fun a b => cnt b < cnt a ∨ (cnt a = cnt b ∧ a < b)) := by
  intro c
  induction c with
  | zero => exact List.Pairwise.nil
  | succ c ih =>
      rw [rankedIds, List.pairwise_append]
      refine ⟨?_, ih, ?_⟩
      · refine (hids.filter _).imp_of_mem ?_
        intro a b ha hb hab
        rcases List.mem_filter.mp ha with ⟨_, hca⟩
        rcases List.mem_filter.mp hb with ⟨_, hcb⟩
        simp only [decide_eq_true_iff] at hca hcb
        exact Or.inr ⟨by omega, hab⟩
      · intro a ha b hb
        rcases List.mem_filter.mp ha with ⟨_, hca⟩
        simp only [decide_eq_true_iff] at hca
        have := mem_rankedIds hb
        exact Or.inl (by omega)

/- ## Further auxiliary lemmas -/

theorem docsFrom_append : ∀ (g : Nat) (l1 l2 : List (String × List Nat)),
    docsFrom g (l1 ++ l2) = docsFrom g l1 ++ docsFrom (g + l1.length) l2
  | _, [], _ => by simp [docsFrom]
  | g, d :: rest, l2 => by
      show (g, d.1, d.2) :: docsFrom (g + 1) (rest ++ l2)
        = ((g, d.1, d.2) :: docsFrom (g + 1) rest)
          ++ docsFrom (g + (rest.length + 1)) l2
      rw [docsFrom_append (g + 1) rest l2,
        show g + (rest.length + 1) = g + 1 + rest.length by omega]
      rfl

/-- Tombstones of a published commit manifest only cover previously
allocated ids. -/
theorem commitManifest_tombs_lt {w : SegmentIndexWriter} (hw : WriterInv w) :
    ∀ g ∈ w.commitManifest.tombstones, g < w.store.next_global_id := by
  intro g hg
  simp only [SegmentIndexWriter.commitManifest, List.mem_append] at hg
  rcases hg with (hg | hg) | hg
  · exact hw.store.tombsLt g hg
  · exact Nat.lt_of_lt_of_le (resolveNames_lt hw.store.chained hg) hw.store.bound
  · exact Nat.lt_of_lt_of_le (resolveNames_lt hw.store.chained hg) hw.store.bound

/-- Membership in the merged lookup, phrased through the per-segment posting
lists and the local-to-global translation. -/
theorem mem_lookupSegs_postings {tombs : List Nat} {t : Nat × Nat × Nat} :
    ∀ {segs : List Segment} {g : Nat},
    g ∈ lookupSegs tombs t segs ↔
      (∃ s ∈ segs, ∃ l ∈ s.postings t, g = s.base + l) ∧ g ∉ tombs := by
  intro segs
  induction segs with
  | nil => intro g; simp [lookupSegs]
  | cons s rest ih =>
      intro g
      simp only [lookupSegs, List.mem_append, List.mem_filter, List.mem_map,
        decide_eq_true_iff, ih, List.mem_cons]
      constructor
      · rintro (⟨⟨l, hl, hg⟩, ht⟩ | ⟨⟨s', hs', hl⟩, ht⟩)
        · exact ⟨⟨s, Or.inl rfl, l, hl, hg.symm⟩, ht⟩
        · exact ⟨⟨s', Or.inr hs', hl⟩, ht⟩
      · rintro ⟨⟨s', hs' | hs', l, hl, hg⟩, ht⟩
        · subst hs'
          exact Or.inl ⟨⟨l, hl, hg.symm⟩, ht⟩
        · exact Or.inr ⟨⟨s', hs', l, hl, hg⟩, ht⟩

/-- For a live document of a well-formed manifest, the merged lookup
contains its id exactly for the trigrams of its content. -/
theorem lookup_live_iff {m : Manifest} (hm : ManifestInv m) {g : Nat}
    {n : String} {c : List Nat} (hd : (g, n, c) ∈ m.liveDocs)
    (t : Nat × Nat × Nat) :
    g ∈ lookupSegs m.tombstones t m.segments ↔ t ∈ trigramsOf c := by
  rcases mem_liveDocs.mp hd with ⟨hmem, hnt⟩
  rw [mem_lookupSegs]
  constructor
  · rintro ⟨⟨n', c', hmem', ht⟩, _⟩
    have heq : ((g, n', c') : Nat × String × List Nat) = (g, n, c) :=
      segsDocs_id_inj hm.chained hmem' hmem rfl
    have : c' = c := congrArg (fun d => d.2.2) heq
    rwa [this] at ht
  · intro ht
    exact ⟨⟨n, c, hmem, ht⟩, hnt⟩

theorem stageAll_clean : ∀ (ps acc : List (String × List Nat)) (st : Manifest),
    (∀ p ∈ ps, p.1 ≠ "") →
    (∀ p ∈ ps, ∀ q ∈ acc, q.1 ≠ p.1) →
    (ps.map (fun p => p.1)).Nodup →
    stageAll { store := st, pendingAdds := acc, pendingDeletes := [] } ps
      = some { store := st, pendingAdds := acc ++ ps, pendingDeletes := [] } := by
  intro ps
  induction ps with
  | nil => intro acc st _ _ _; simp [stageAll]
  | cons p rest ih =>
      intro acc st hne hdisj hnd
      have hp1 : p.1 ≠ "" := hne p (List.mem_cons_self _ _)
      have hadd : SegmentIndexWriter.add_file
          { store := st, pendingAdds := acc, pendingDeletes := [] } p.1 p.2
          = some { store := st, pendingAdds := acc ++ [p], pendingDeletes := [] } := by
        have hacc : acc.filter (fun q => decide (q.1 ≠ p.1)) = acc := by
          rw [List.filter_eq_self]
          intro q hq
          simp only [decide_eq_true_iff]
          exact hdisj p (List.mem_cons_self _ _) q hq
        rw [SegmentIndexWriter.add_file, if_neg hp1, hacc]
        rfl
      simp only [List.map_cons, List.nodup_cons] at hnd
      have hstep := ih (acc ++ [p]) st
        (fun q hq => hne q (List.mem_cons_of_mem _ hq))
        (by
          intro q hq r hr
          rcases List.mem_append.mp hr with hr | hr
          · exact hdisj q (List.mem_cons_of_mem _ hq) r hr
          · rcases List.mem_singleton.mp hr with rfl
            intro hc
            exact hnd.1 (by
              rw [hc]
              exact List.mem_map.mpr ⟨q, hq, rfl⟩))
        hnd.2
      have hmatch : stageAll { store := st, pendingAdds := acc, pendingDeletes := [] }
          (p :: rest)
          = stageAll { store := st, pendingAdds := acc ++ [p], pendingDeletes := [] }
            rest := by
        rw [stageAll, hadd]
      rw [hmatch, hstep]
      simp

/-- Filtering by a name is empty on a list pre-filtered by a predicate that
excludes that name. -/
theorem filter_name_of_filtered_nil {l : List (Nat × String × List Nat)}
    {p : Nat × String × List Nat → Bool} {n : String}
    (hp : ∀ d ∈ l, p d = true → d.2.1 ≠ n) :
    (l.filter p).filter (fun d => decide (d.2.1 = n)) = [] := by
  rw [List.filter_eq_nil_iff]
  intro d hd
  rcases List.mem_filter.mp hd with ⟨hdl, hdp⟩
  simp only [decide_eq_true_iff]
  exact hp d hdl hdp

theorem delete_file_store (w : SegmentIndexWriter) (n : String) :
    (w.delete_file n).store = w.store := by
  rw [SegmentIndexWriter.delete_file]
  split
  · rfl
  · split <;> rfl

/- ## Claim theorems -/

/-- Claim C1: commit is atomic.  For every writer state and every number of
completed commit-protocol steps: (1) if the protocol stops before the final
manifest rename, a freshly opened reader sees exactly the previously
committed state, with orphaned temporary files ignored; (2) a failed commit
leaves the writer's pending buffers intact so the same batch may be
retried; (3) in every case a reader's snapshot is either the fully-prior or
the fully-next committed manifest, never a mixture. -/
theorem claim_C1_commit_atomic (w : SegmentIndexWriter) (k : Nat) :
    (k < 6 → hound_segment_index_reader_open (w.commitOnDisk k)
      = hound_segment_index_reader_open
          { manifest := w.store, tempSegment := none, tempManifest := none })
    ∧ (k < 6 → w.commitSurvivor k = w)
    ∧ ((hound_segment_index_reader_open (w.commitOnDisk k)).snapshot = w.store
        ∨ (hound_segment_index_reader_open (w.commitOnDisk k)).snapshot
            = w.commit.store) := by
  refine ⟨?_, ?_, ?_⟩
  · intro hk
    have h6 : ¬ 6 ≤ k := by omega
    by_cases hp : w.hasPending = true <;>
      simp [SegmentIndexWriter.commitOnDisk, hound_segment_index_reader_open, hp, h6]
  · intro hk
    have h6 : ¬ 6 ≤ k := by omega
    simp [SegmentIndexWriter.commitSurvivor, h6]
  · by_cases h6 : 6 ≤ k
    · by_cases hp : w.hasPending = true
      · right
        simp [SegmentIndexWriter.commitOnDisk, hound_segment_index_reader_open, hp,
          h6, SegmentIndexWriter.commit]
      · left
        simp [SegmentIndexWriter.commitOnDisk, hound_segment_index_reader_open, hp, h6]
    · left
      by_cases hp : w.hasPending = true <;>
        simp [SegmentIndexWriter.commitOnDisk, hound_segment_index_reader_open, hp, h6]

theorem claim_C1_witness :
    (4 : Nat) < 6
    ∧ hound_segment_index_reader_open
        (SegmentIndexWriter.commitOnDisk
          { store := emptyManifest, pendingAdds := [("a", [1, 2, 3])],
            pendingDeletes := [] } 4)
      = hound_segment_index_reader_open
          { manifest := emptyManifest, tempSegment := none, tempManifest := none }
    ∧ SegmentIndexWriter.commitSurvivor
        { store := emptyManifest, pendingAdds := [("a", [1, 2, 3])],
          pendingDeletes := [] } 4
      = { store := emptyManifest, pendingAdds := [("a", [1, 2, 3])],
          pendingDeletes := [] } :=
  ⟨by decide,
   (claim_C1_commit_atomic
     { store := emptyManifest, pendingAdds := [("a", [1, 2, 3])],
       pendingDeletes := [] } 4).1 (by decide),
   (claim_C1_commit_atomic
     { store := emptyManifest, pendingAdds := [("a", [1, 2, 3])],
       pendingDeletes := [] } 4).2.1 (by decide)⟩

/-- Claim C4: for every corpus, query and `max_results`, the list returned
by search is sorted by match count descending with ties broken by ascending
file id; search is a pure function of its inputs, so two runs on an
identical corpus and query produce identical orderings. -/
theorem claim_C4_ranking (r : SegmentIndexReader) (query : List Nat)
    (max_results : Nat) :
    (hound_search r query max_results).Pairwise
      (fun a b => b.match_count < a.match_count
        ∨ (a.match_count = b.match_count ∧ a.file_id < b.file_id))
    ∧ hound_search r query max_results = hound_search r query max_results := by
  refine ⟨?_, rfl⟩
  rw [hound_search, SegmentIndexReader.search, List.pairwise_map]
  refine List.Pairwise.sublist (List.take_sublist _ _) ?_
  have := rankedIds_pairwise
    (matchCount r (queryTrigrams (query.takeWhile (fun b => decide (b ≠ 0)))))
    (List.range r.snapshot.next_global_id)
    (List.pairwise_lt_range _)
    (queryTrigrams (query.takeWhile (fun b => decide (b ≠ 0)))).length
  exact this.imp (fun h => h)

/-- Claim C7: an empty commit is a no-op: with no pending adds and no
pending deletes, `commit` creates no new segment, leaves the manifest
untouched, and leaves `segment_count` and `document_count` unchanged. -/
theorem claim_C7_empty_commit (w : SegmentIndexWriter)
    (ha : w.pendingAdds = []) (hd : w.pendingDeletes = []) :
    w.commit = w
    ∧ w.commit.store = w.store
    ∧ w.commit.segment_count = w.segment_count
    ∧ w.commit.document_count = w.document_count := by
  have hp : w.hasPending = false := by
    simp [SegmentIndexWriter.hasPending, ha, hd]
  have hcw : w.commit = w := by
    simp [SegmentIndexWriter.commit, hp]
  exact ⟨hcw, by rw [hcw], by rw [hcw], by rw [hcw]⟩

theorem claim_C7_witness :
    writer0.commit = writer0
    ∧ writer0.commit.store = writer0.store
    ∧ writer0.commit.segment_count = writer0.segment_count
    ∧ writer0.commit.document_count = writer0.document_count :=
  claim_C7_empty_commit writer0 rfl rfl

/-- Claim C9: a query shorter than 3 bytes has an empty trigram set, and
search returns an empty result list (the function is total: no error is
signalled). -/
theorem claim_C9_short_query (r : SegmentIndexReader) (query : List Nat)
    (max_results : Nat) (h : query.length < 3) :
    hound_search r query max_results = [] := by
  have hlen : (query.takeWhile (fun b => decide (b ≠ 0))).length < 3 :=
    Nat.lt_of_le_of_lt (List.takeWhile_sublist _).length_le h
  rw [hound_search, SegmentIndexReader.search, queryTrigrams,
    trigramsOf_short hlen]
  simp [rankedIds]

theorem claim_C9_witness :
    ([1, 2] : List Nat).length < 3
    ∧ hound_search { snapshot := emptyManifest } [1, 2] 5 = [] :=
  ⟨by decide, claim_C9_short_query { snapshot := emptyManifest } [1, 2] 5 (by decide)⟩

/-- Claim C10: the search query arrives as a NUL-terminated C string, so
search only considers the bytes before the first zero byte; hence no
trigram containing a zero byte can ever be supplied through `hound_search`,
even though such trigrams are reachable through the explicit 3-byte
interface `lookup_trigram` of the reader. -/
theorem claim_C10_nul_terminated_query :
    (∀ (r : SegmentIndexReader) (q : List Nat) (m : Nat),
      hound_search r q m = r.search (q.takeWhile (fun b => decide (b ≠ 0))) m)
    ∧ (∀ (q : List Nat) (t : Nat × Nat × Nat),
        t ∈ trigramsOf (q.takeWhile (fun b => decide (b ≠ 0))) →
        t.1 ≠ 0 ∧ t.2.1 ≠ 0 ∧ t.2.2 ≠ 0)
    ∧ (∃ rd : SegmentIndexReader, rd.lookup_trigram 0 0 0 ≠ []) := by
  refine ⟨fun _ _ _ => rfl, ?_, ?_⟩
  · intro q t ht
    have hmem := trigramsOf_mem _ t ht
    refine ⟨?_, ?_, ?_⟩
    · have := List.mem_takeWhile_imp hmem.1
      simpa using this
    · have := List.mem_takeWhile_imp hmem.2.1
      simpa using this
    · have := List.mem_takeWhile_imp hmem.2.2
      simpa using this
  · refine ⟨zeroByteReader, ?_⟩
    decide

/-- Claim C3: trigram correctness.  For every live (committed,
non-tombstoned) document and every 3-byte trigram, the reader's merged
lookup contains the document's global id exactly when the trigram occurs as
a contiguous 3-byte window of the document's content. -/
theorem claim_C3_trigram_correct (w : SegmentIndexWriter) (h : Reachable w)
    (g : Nat) (n : String) (c : List Nat) (hd : (g, n, c) ∈ w.store.liveDocs)
    (t : Nat × Nat × Nat) :
    g ∈ (hound_segment_index_reader_open
        { manifest := w.store, tempSegment := none,
          tempManifest := none }).lookup_trigram t.1 t.2.1 t.2.2
      ↔ t ∈ trigramsOf c :=
  lookup_live_iff (reachable_inv h).store hd t

theorem stagedABC_reachable : Reachable stagedABC.commit :=
  Reachable.commit (Reachable.add Reachable.init
    (show writer0.add_file "a.txt" [97, 98, 99] = some stagedABC by decide))

theorem claim_C3_witness :
    ((0, "a.txt", [97, 98, 99]) : Nat × String × List Nat)
        ∈ stagedABC.commit.store.liveDocs
    ∧ (0 ∈ (hound_segment_index_reader_open
        { manifest := stagedABC.commit.store, tempSegment := none,
          tempManifest := none }).lookup_trigram 97 98 99
      ↔ ((97, 98, 99) : Nat × Nat × Nat) ∈ trigramsOf [97, 98, 99]) :=
  ⟨by decide,
   claim_C3_trigram_correct stagedABC.commit stagedABC_reachable
     0 "a.txt" [97, 98, 99] (by decide) (97, 98, 99)⟩

/-- Claim C5: for every opened snapshot of a committed state and every
trigram key, the merged lookup is sorted strictly ascending, duplicate-free,
contains no tombstoned id, and is exactly the tombstone-filtered merge of
the per-segment posting lists with local ids translated by each segment's
base. -/
theorem claim_C5_lookup_merge (w : SegmentIndexWriter) (h : Reachable w)
    (b0 b1 b2 : Nat) :
    ((hound_segment_index_reader_open
        { manifest := w.store, tempSegment := none,
          tempManifest := none }).lookup_trigram b0 b1 b2).Pairwise (· < ·)
    ∧ ((hound_segment_index_reader_open
        { manifest := w.store, tempSegment := none,
          tempManifest := none }).lookup_trigram b0 b1 b2).Nodup
    ∧ (∀ g ∈ (hound_segment_index_reader_open
        { manifest := w.store, tempSegment := none,
          tempManifest := none }).lookup_trigram b0 b1 b2,
        g ∉ w.store.tombstones)
    ∧ (∀ g, g ∈ (hound_segment_index_reader_open
        { manifest := w.store, tempSegment := none,
          tempManifest := none }).lookup_trigram b0 b1 b2
        ↔ (∃ s ∈ w.store.segments, ∃ l ∈ s.postings (b0, b1, b2), g = s.base + l)
          ∧ g ∉ w.store.tombstones) := by
  have hch := (reachable_inv h).store.chained
  have hpw : (lookupSegs w.store.tombstones (b0, b1, b2) w.store.segments).Pairwise
      (· < ·) := lookupSegs_pairwise hch
  refine ⟨hpw, hpw.imp Nat.ne_of_lt, ?_, ?_⟩
  · intro g hg
    exact (mem_lookupSegs_postings.mp hg).2
  · intro g
    exact mem_lookupSegs_postings

theorem claim_C5_witness :
    ((hound_segment_index_reader_open
        { manifest := stagedABC.commit.store, tempSegment := none,
          tempManifest := none }).lookup_trigram 97 98 99).Pairwise (· < ·)
    ∧ ((hound_segment_index_reader_open
        { manifest := stagedABC.commit.store, tempSegment := none,
          tempManifest := none }).lookup_trigram 97 98 99).Nodup :=
  ⟨(claim_C5_lookup_merge stagedABC.commit stagedABC_reachable 97 98 99).1,
   (claim_C5_lookup_merge stagedABC.commit stagedABC_reachable 97 98 99).2.1⟩

/-- Claim C2: round trip.  Staging any list of `(name, content)` pairs with
non-empty, pairwise-distinct names into a fresh store and committing yields,
on a freshly opened reader, a live document set that is exactly those pairs
(same names and contents, in staging order), and each document's trigram
memberships are exactly the trigrams of its content. -/
theorem claim_C2_round_trip (ps : List (String × List Nat))
    (hne : ∀ p ∈ ps, p.1 ≠ "") (hnd : (ps.map (fun p => p.1)).Nodup) :
    ∃ w, stageAll writer0 ps = some w
      ∧ (hound_segment_index_reader_open
          { manifest := w.commit.store, tempSegment := none,
            tempManifest := none }).snapshot.liveDocs.map (fun d => (d.2.1, d.2.2))
        = ps
      ∧ ∀ d ∈ (hound_segment_index_reader_open
          { manifest := w.commit.store, tempSegment := none,
            tempManifest := none }).snapshot.liveDocs,
          ∀ t : Nat × Nat × Nat,
          d.1 ∈ (hound_segment_index_reader_open
            { manifest := w.commit.store, tempSegment := none,
              tempManifest := none }).lookup_trigram t.1 t.2.1 t.2.2
            ↔ t ∈ trigramsOf d.2.2 := by
  have hstage : stageAll writer0 ps
      = some { store := emptyManifest, pendingAdds := ps, pendingDeletes := [] } := by
    have := stageAll_clean ps [] emptyManifest hne (by intro p _ q hq; simp at hq) hnd
    simpa [writer0] using this
  refine ⟨_, hstage, ?_, ?_⟩
  all_goals {
    have hwinv : WriterInv
        { store := emptyManifest, pendingAdds := ps, pendingDeletes := [] } :=
      ⟨writer0_inv.store, hnd⟩
    have hlive : (SegmentIndexWriter.commit
        { store := emptyManifest, pendingAdds := ps,
          pendingDeletes := [] }).store.liveDocs = docsFrom 0 ps := by
      by_cases hps : ps = []
      · subst hps
        rfl
      · have hp : SegmentIndexWriter.hasPending
            { store := emptyManifest, pendingAdds := ps, pendingDeletes := [] }
            = true := by
          simp [SegmentIndexWriter.hasPending, hps]
        have := commit_liveDocs
          { store := emptyManifest, pendingAdds := ps, pendingDeletes := [] }
          hwinv.store.chained hwinv.store.bound hwinv.store.tombsLt hp
        simpa [emptyManifest, Manifest.liveDocs, Manifest.allDocs, segsDocs] using this
    first
    | exact (by
        show ((SegmentIndexWriter.commit
            { store := emptyManifest, pendingAdds := ps,
              pendingDeletes := [] }).store.liveDocs.map (fun d => (d.2.1, d.2.2)))
          = ps
        rw [hlive, docsFrom_map])
    | exact (by
        intro d hd t
        have hminv := (commit_inv hwinv).store
        have hd' : ((d.1, d.2.1, d.2.2) : Nat × String × List Nat)
            ∈ (SegmentIndexWriter.commit
              { store := emptyManifest, pendingAdds := ps,
                pendingDeletes := [] }).store.liveDocs := hd
        exact lookup_live_iff hminv hd' t)
  }

theorem claim_C2_witness :
    ∃ w, stageAll writer0 [("a", [1, 2, 3, 4])] = some w
      ∧ (hound_segment_index_reader_open
          { manifest := w.commit.store, tempSegment := none,
            tempManifest := none }).snapshot.liveDocs.map (fun d => (d.2.1, d.2.2))
        = [("a", [1, 2, 3, 4])]
      ∧ ∀ d ∈ (hound_segment_index_reader_open
          { manifest := w.commit.store, tempSegment := none,
            tempManifest := none }).snapshot.liveDocs,
          ∀ t : Nat × Nat × Nat,
          d.1 ∈ (hound_segment_index_reader_open
            { manifest := w.commit.store, tempSegment := none,
              tempManifest := none }).lookup_trigram t.1 t.2.1 t.2.2
            ↔ t ∈ trigramsOf d.2.2 :=
  claim_C2_round_trip [("a", [1, 2, 3, 4])] (by decide) (by decide)

/-- Claim C6: delete-then-add coalescing.  Staging `delete_file(name)` and
then `add_file(name, newContent)` before commit results, after commit, in
exactly one live document carrying that name, holding the new content, and
its new global id carries no tombstone. -/
theorem claim_C6_delete_then_add (w : SegmentIndexWriter) (h : Reachable w)
    (name : String) (content : List Nat) (w2 : SegmentIndexWriter)
    (hstep : (w.delete_file name).add_file name content = some w2) :
    ∃ g, w2.commit.store.liveDocs.filter (fun d => decide (d.2.1 = name))
        = [(g, name, content)]
      ∧ g ∉ w2.commit.store.tombstones := by
  have hw2 : WriterInv w2 :=
    add_file_inv (delete_file_inv (reachable_inv h)) hstep
  by_cases hn0 : name = ""
  · rw [SegmentIndexWriter.add_file, if_pos hn0] at hstep
    cases hstep
  rw [SegmentIndexWriter.add_file, if_neg hn0] at hstep
  injection hstep with hw2eq
  have hadds : w2.pendingAdds
      = (w.delete_file name).pendingAdds.filter (fun p => decide (p.1 ≠ name))
        ++ [(name, content)] := by
    rw [← hw2eq]
  have hAprop : ∀ p ∈ (w.delete_file name).pendingAdds.filter
      (fun p => decide (p.1 ≠ name)), p.1 ≠ name := by
    intro p hpmem
    rcases List.mem_filter.mp hpmem with ⟨_, hpne⟩
    simpa using hpne
  have hp : w2.hasPending = true := by
    rw [SegmentIndexWriter.hasPending, hadds]
    simp
  have hld := commit_liveDocs w2 hw2.store.chained hw2.store.bound
    hw2.store.tombsLt hp
  refine ⟨w2.store.next_global_id
    + ((w.delete_file name).pendingAdds.filter
        (fun p => decide (p.1 ≠ name))).length, ?_, ?_⟩
  · rw [hld, List.filter_append]
    have h1 : ((w2.store.liveDocs.filter
          (fun d => decide (d.2.1 ∉ w2.pendingDeletes)
            && decide (d.2.1 ∉ w2.pendingAdds.map (fun p => p.1)))).filter
          (fun d => decide (d.2.1 = name))) = [] := by
      refine filter_name_of_filtered_nil ?_
      intro d _ hdp
      simp only [Bool.and_eq_true, decide_eq_true_iff] at hdp
      intro hc
      refine hdp.2 ?_
      rw [hc, hadds]
      simp
    rw [h1, hadds, docsFrom_append, List.filter_append]
    have h2 : ((docsFrom w2.store.next_global_id
        ((w.delete_file name).pendingAdds.filter
          (fun p => decide (p.1 ≠ name)))).filter
        (fun d => decide (d.2.1 = name))) = [] := by
      rw [List.filter_eq_nil_iff]
      intro d hd
      have hdn := mem_docsFrom_name hd
      rcases List.mem_map.mp hdn with ⟨p, hpmem, hpeq⟩
      simp only [decide_eq_true_iff]
      rw [← hpeq]
      exact hAprop p hpmem
    rw [h2]
    simp [docsFrom]
  · have hcs : w2.commit.store = w2.commitManifest := by
      simp [SegmentIndexWriter.commit, hp]
    rw [hcs]
    intro hgmem
    have := commitManifest_tombs_lt hw2 _ hgmem
    omega

theorem claim_C6_witness :
    ∃ g, (SegmentIndexWriter.commit
        { store := emptyManifest, pendingAdds := [("a", [1, 2, 3])],
          pendingDeletes := [] }).store.liveDocs.filter
          (fun d => decide (d.2.1 = "a"))
        = [(g, "a", [1, 2, 3])]
      ∧ g ∉ (SegmentIndexWriter.commit
        { store := emptyManifest, pendingAdds := [("a", [1, 2, 3])],
          pendingDeletes := [] }).store.tombstones :=
  claim_C6_delete_then_add writer0 Reachable.init "a" [1, 2, 3]
    { store := emptyManifest, pendingAdds := [("a", [1, 2, 3])],
      pendingDeletes := [] } (by decide)

/-- Claim C8: single live version per name.  For every reachable writer:
(1) at every committed instant each name has at most one live global id;
(2) from a committed instant (no pending changes), staging `delete_file(n)`
and committing tombstones exactly the currently-live id of `n`, leaving the
name with no live id; (3) from a committed instant, re-adding a name
allocates a fresh global id — the manifest's `next_global_id` — and after
commit that fresh id is the name's single live id. -/
theorem claim_C8_single_live_version (w : SegmentIndexWriter) (h : Reachable w) :
    (∀ n, (w.store.liveIdsOfName n).length ≤ 1)
    ∧ (∀ n g, w.pendingAdds = [] → w.pendingDeletes = [] →
        g ∈ w.store.liveIdsOfName n →
        ((w.delete_file n).commit.store.liveIdsOfName n = []
          ∧ g ∈ (w.delete_file n).commit.store.tombstones))
    ∧ (∀ n c w2, w.pendingAdds = [] → w.pendingDeletes = [] →
        w.add_file n c = some w2 →
        w2.commit.store.liveIdsOfName n = [w.store.next_global_id]) := by
  have hw := reachable_inv h
  refine ⟨hw.store.nameUnique, ?_, ?_⟩
  · intro n g ha hd hg
    have hwdel : w.delete_file n
        = { store := w.store, pendingAdds := [], pendingDeletes := [n] } := by
      rw [SegmentIndexWriter.delete_file, ha, hd]
      simp
    have hwi : WriterInv (w.delete_file n) := delete_file_inv hw
    have hp : (w.delete_file n).hasPending = true := by
      rw [hwdel]
      simp [SegmentIndexWriter.hasPending]
    have hld := commit_liveDocs (w.delete_file n) hwi.store.chained
      hwi.store.bound hwi.store.tombsLt hp
    constructor
    · rw [Manifest.liveIdsOfName, hld, List.filter_append, List.map_append]
      have h1 : (((w.delete_file n).store.liveDocs.filter
            (fun d => decide (d.2.1 ∉ (w.delete_file n).pendingDeletes)
              && decide (d.2.1 ∉ (w.delete_file n).pendingAdds.map
                (fun p => p.1)))).filter
            (fun d => decide (d.2.1 = n))) = [] := by
        refine filter_name_of_filtered_nil ?_
        intro d _ hdp
        simp only [Bool.and_eq_true, decide_eq_true_iff] at hdp
        intro hc
        refine hdp.1 ?_
        rw [hc, hwdel]
        simp
      have h2 : (w.delete_file n).pendingAdds = [] := by
        rw [hwdel]
      rw [h1, h2]
      simp [docsFrom]
    · have hcs : (w.delete_file n).commit.store
          = (w.delete_file n).commitManifest := by
        simp [SegmentIndexWriter.commit, hp]
      rw [hcs, SegmentIndexWriter.commitManifest]
      simp only [List.mem_append]
      left
      right
      rw [hwdel]
      simp only [resolveNames, List.append_nil]
      exact hg
  · intro n c w2 ha hd hstep
    by_cases hn0 : n = ""
    · rw [SegmentIndexWriter.add_file, if_pos hn0] at hstep
      cases hstep
    rw [SegmentIndexWriter.add_file, if_neg hn0] at hstep
    injection hstep with hw2eq
    have hadds : w2.pendingAdds = [(n, c)] := by
      rw [← hw2eq, ha]
      rfl
    have hdels : w2.pendingDeletes = [] := by
      rw [← hw2eq, hd]
      rfl
    have hstore : w2.store = w.store := by
      rw [← hw2eq]
    have hwi : WriterInv w2 := add_file_inv hw
      (by rw [SegmentIndexWriter.add_file, if_neg hn0, hw2eq])
    have hp : w2.hasPending = true := by
      rw [SegmentIndexWriter.hasPending, hadds]
      simp
    have hld := commit_liveDocs w2 hwi.store.chained hwi.store.bound
      hwi.store.tombsLt hp
    rw [Manifest.liveIdsOfName, hld, List.filter_append, List.map_append]
    have h1 : ((w2.store.liveDocs.filter
          (fun d => decide (d.2.1 ∉ w2.pendingDeletes)
            && decide (d.2.1 ∉ w2.pendingAdds.map (fun p => p.1)))).filter
          (fun d => decide (d.2.1 = n))) = [] := by
      refine filter_name_of_filtered_nil ?_
      intro d _ hdp
      simp only [Bool.and_eq_true, decide_eq_true_iff] at hdp
      intro hc
      refine hdp.2 ?_
      rw [hc, hadds]
      simp
    rw [h1, hadds, hstore]
    simp [docsFrom]

theorem claim_C8_witness :
    ((stagedABC.commit.store.liveIdsOfName "a.txt").length ≤ 1)
    ∧ ((stagedABC.commit.delete_file "a.txt").commit.store.liveIdsOfName "a.txt" = []
        ∧ 0 ∈ (stagedABC.commit.delete_file "a.txt").commit.store.tombstones)
    ∧ (SegmentIndexWriter.commit
        { store := stagedABC.commit.store, pendingAdds := [("b.txt", [4, 5, 6])],
          pendingDeletes := [] }).store.liveIdsOfName "b.txt" = [1] :=
  ⟨(claim_C8_single_live_version stagedABC.commit stagedABC_reachable).1 "a.txt",
   (claim_C8_single_live_version stagedABC.commit stagedABC_reachable).2.1
     "a.txt" 0 rfl rfl (by decide),
   (claim_C8_single_live_version stagedABC.commit stagedABC_reachable).2.2
     "b.txt" [4, 5, 6]
     { store := stagedABC.commit.store, pendingAdds := [("b.txt", [4, 5, 6])],
       pendingDeletes := [] } rfl rfl (by decide)⟩

theorem claim_C10_witness :
    ((1, 2, 3) : Nat × Nat × Nat) ∈
        trigramsOf (([1, 2, 3, 0, 7] : List Nat).takeWhile (fun b => decide (b ≠ 0)))
    ∧ ((1 : Nat) ≠ 0 ∧ (2 : Nat) ≠ 0 ∧ (3 : Nat) ≠ 0) :=
  ⟨by decide, claim_C10_nul_terminated_query.2.1 [1, 2, 3, 0, 7] (1, 2, 3) (by decide)⟩

end Hound
